import Mathlib

/-!
Verification of the `hue` Go package: terminal colorization via ECMA-48
escape sequences.  The package provides a `Hue` color pair, an
`Encode`/`Decode` pair wrapping text in escape codes, a solid `Writer`
that colorizes every write with one hue, and a `RegexpWriter` that colors
sub-spans of a buffer matched by regular-expression rules.

The embedding works at the byte level: Go strings and `[]byte` values are
`List Nat` (each element a byte, `0 ≤ b ≤ 255`).  Escape sequences are
modelled as their literal byte lists (`ESC` = 27, `[` = 91, `;` = 59,
`m` = 109, `%` = 37, `s` = 115, digits 48..57).  Go `int` fields are
`Int`.  The regexp engine (Go's `regexp` package, external to this
repository) is abstracted: each rule carries the span list that
`FindAllIndex(p, -1)` returns for the buffer under consideration.
-/

namespace hue

/-- Foreground color codes of the package (`Black = 30` .. `Default`).
The revision that defines `isUnset`-substitution enumerates
`Black, Red, Green, Brown, Blue, Magenta, Cyan, White, Default`,
so `Default = 38` there. -/
def Black : Int := 30

/-- Color code `Red = 31`. -/
def Red : Int := 31

/-- Color code `Green = 32`. -/
def Green : Int := 32

/-- Color code `Brown = 33`. -/
def Brown : Int := 33

/-- Color code `Blue = 34`. -/
def Blue : Int := 34

/-- Color code `Magenta = 35`. -/
def Magenta : Int := 35

/-- Color code `Cyan = 36`. -/
def Cyan : Int := 36

/-- Color code `White = 37`. -/
def White : Int := 37

/-- Color code `Default = 38` (sentinel meaning the terminal's native color). -/
def Default : Int := 38

/-- Models the Go struct `Hue { Fg, Bg int }`: a foreground and a
background color code. -/
structure Hue where
  Fg : Int
  Bg : Int
deriving DecidableEq, Repr

/-- Models `func isUnset(i int) bool { return i == 0 }`. -/
def isUnset (i : Int) : Bool := i == 0

/-- Helper for `natDigits`: peel decimal digits of `n` onto `acc`,
least-significant first, with enough fuel to exhaust `n` (a number has
at most as many digits as its value, so fuel `n + 1` always suffices). -/
def natDigitsCore : Nat → Nat → List Nat → List Nat
  | 0, _, acc => acc
  | fuel + 1, n, acc =>
    if n < 10 then (48 + n) :: acc
    else natDigitsCore fuel (n / 10) ((48 + n % 10) :: acc)

/-- Decimal digits of a natural number as ASCII bytes; models the digit
output of Go's `%d` verb for non-negative values. -/
def natDigits (n : Nat) : List Nat :=
  natDigitsCore (n + 1) n []

/-- ASCII bytes printed by Go's `%d` verb for an `int` (a `-` sign, byte
45, followed by the decimal digits of the absolute value). -/
def intDigits (i : Int) : List Nat :=
  if i < 0 then 45 :: natDigits i.natAbs else natDigits i.toNat

/-- Byte sequence produced by formatting `ASCIIFmt = "\x1b[%d;%dm"` with
the two color codes `fg` and `bg`: `ESC [ fg ; bg m`. -/
def ASCIIFmtBytes (fg bg : Int) : List Nat :=
  [27, 91] ++ (intDigits fg ++ ([59] ++ (intDigits bg ++ [109])))

/-- Byte sequence of `ASCIIReset = "\x1b[0m"`. -/
def ASCIIResetBytes : List Nat := [27, 91, 48, 109]

/-- Models `func Encode(h *Hue, a interface\x7b\x7d) String`.  The Go function
mutates `h` through the pointer (setting unset fields to `Default`) and
returns `fmt.Sprintf("\x1b[%d;%dm%v\x1b[0m", h.Fg, h.Bg+10, a)`; the
mutation is rendered as explicit state passing, so the result is the
post-call `Hue` paired with the encoded bytes.  `%v` applied to a byte
string reproduces the bytes. -/
def Encode (h : Hue) (a : List Nat) : Hue × List Nat :=
  let h1 := if isUnset h.Fg then { h with Fg := Default } else h
  let h2 := if isUnset h1.Bg then { h1 with Bg := Default } else h1
  (h2, ASCIIFmtBytes h2.Fg (h2.Bg + 10) ++ (a ++ ASCIIResetBytes))

/-- Error raised by `Decode` on inputs shorter than 12 bytes.  The Go
code panics with a length message; following the spec's error taxonomy
this is rendered as an explicit error value. -/
inductive DecodeErr where
  | lengthError
deriving DecidableEq, Repr

/-- Models `func (hs String) Decode() string`: panic (length error) when
`len(hs) < 12`, otherwise the byte range `hs[8 : len(hs)-4]`. -/
def Decode (hs : List Nat) : Except DecodeErr (List Nat) :=
  if hs.length < 12 then .error .lengthError
  else .ok ((hs.drop 8).take (hs.length - 12))

/-- Models `fmt.Sprintf(format, arg)` for the format strings reachable in
this package: the first occurrence of the verb `%s` (bytes 37, 115) is
replaced by `arg`; every other byte is copied.  All reachable format
strings contain exactly one verb, a single `%s`. -/
def sprintfS : List Nat → List Nat → List Nat
  | [], _ => []
  | [c], _ => [c]
  | c :: d :: rest, arg =>
    if c = 37 ∧ d = 115 then arg ++ rest else c :: sprintfS (d :: rest) arg

/-- Models `func (h *Hue) Sprintf(format string, a interface\x7b\x7d) String`,
which is `fmt.Sprintf(string(Encode(h, format)), a)`.  The state of the
hue after the embedded `Encode` call is returned alongside the bytes. -/
def Sprintf (h : Hue) (format a : List Nat) : Hue × List Nat :=
  let he := Encode h format
  (he.1, sprintfS he.2 a)

/-- Models `func (w Writer) Write(p []byte) (n int, err error)`, which is
`w.wrapped.Write([]byte(w.Sprintf("%s", string(p))))`.  The sink is an
infallible byte sink obeying the `io.Writer` contract on success: it
consumes the whole buffer and reports its length.  The result is the
post-call hue state, the bytes handed to the sink, and the returned
count `n`. -/
def writerWrite (h : Hue) (p : List Nat) : Hue × List Nat × Nat :=
  let hs := Sprintf h [37, 115] p
  (hs.1, hs.2, hs.2.length)

/-! ### RegexpWriter

Model of `func (w RegexpWriter) Write(p []byte) (n int, err error)` from
the revision of `hue.go` that defines `RegexpWriter`.  A `rule` pairs a
hue with the span list its compiled regexp produces on the buffer under
consideration — the result of `r.FindAllIndex(p, -1)` (the `regexp`
package is external to this repository, so its match computation is
abstracted to that returned list).  The writer body is translated
loop-for-loop:

* `huemap := make([]byte, len(p))` then for each rule `i = 1..N` and each
  match span `[lo, hi)` set `huemap[j] = byte(i)` — `setRange`,
  `applySpans`, `huemapGo`, `mkHuemap` (note `byte(i)` truncates the rule
  index modulo 256);
* `rulemap[0] = &hue\x7b\x7d` and `rulemap[i] = rules[i-1].hue`;
* the output loop keeps the current color `hue` (starting at 0), and on
  every byte whose `huemap` entry differs emits
  `fmt.Fprintf(w.wrapped, ASCIIFmt, th.Fg(), th.Bg())` before emitting
  the byte itself with `fmt.Fprintf(w.wrapped, "%c", p[i])` — the `%c`
  verb writes the UTF-8 encoding of the byte's code point (`charUTF8`);
* after the loop the code runs `fmt.Print(ASCIIReset)`, which writes to
  the process standard output, not to `w.wrapped`; the model therefore
  keeps the sink stream and the standard-output stream separate.

The sink is modelled as infallible (every write succeeds and reports its
byte count), matching the successful-path behavior of the Go code. -/

/-- Models the struct `rule \x7b *hue; *regexp.Regexp \x7d`: a hue paired with
the spans `FindAllIndex(p, -1)` yields on the buffer being written. -/
structure rule where
  hue : Hue
  spans : List (Nat × Nat)
deriving DecidableEq, Repr

/-- Helper for `setRange`: starting at position `lo`, set the next `k`
positions of the color map to `v`. -/
def setRangeCore : Nat → List Nat → Nat → Nat → List Nat
  | 0, hm, _, _ => hm
  | k + 1, hm, v, lo => setRangeCore k (hm.set lo v) v (lo + 1)

/-- Models the inner loop `for j := w[0]; j < w[1]; j++ \x7b huemap[j] = v \x7d`:
set every position in `[lo, hi)` of the color map to `v` (the loop runs
exactly `hi - lo` times). -/
def setRange (hm : List Nat) (v lo hi : Nat) : List Nat :=
  setRangeCore (hi - lo) hm v lo

/-- Models the loop over one rule's match spans: each span `[lo, hi)`
paints its positions with the (truncated) rule index `v`. -/
def applySpans (hm : List Nat) (v : Nat) : List (Nat × Nat) → List Nat
  | [] => hm
  | s :: ss => applySpans (setRange hm v s.1 s.2) v ss

/-- Models the outer rule loop of `Write`: rule `i` (1-based, in
`AddRule` order) paints its spans with `byte(i) = i % 256`, later rules
overwriting earlier ones. -/
def huemapGo : List rule → Nat → List Nat → List Nat
  | [], _, hm => hm
  | r :: rs, i, hm => huemapGo rs (i + 1) (applySpans hm (i % 256) r.spans)

/-- Color map `huemap` computed by `Write` for a buffer of length `len`:
initialized to all zeros, then painted by every rule in order. -/
def mkHuemap (rules : List rule) (len : Nat) : List Nat :=
  huemapGo rules 1 (List.replicate len 0)

/-- Models `rulemap`: index 0 holds the zero hue `&hue\x7b\x7d`, index `i`
holds rule `i`'s hue. -/
def rulemap (rules : List rule) : List Hue :=
  ⟨0, 0⟩ :: rules.map (·.hue)

/-- One write call issued to the wrapped sink: either an escape sequence
(one `Fprintf ASCIIFmt` call) or the rendering of one payload byte (one
`Fprintf "%c"` call). -/
inductive Emit where
  | esc : List Nat → Emit
  | chr : List Nat → Emit
deriving DecidableEq, Repr

/-- UTF-8 bytes Go's `%c` verb writes for a byte value `c ≤ 255`: the
byte itself below 128, otherwise the two-byte encoding of the code
point `U+0080..U+00FF`. -/
def charUTF8 (c : Nat) : List Nat :=
  if c < 128 then [c] else [192 + c / 64, 128 + c % 64]

/-- Models the output loop of `Write`: walk the buffer and the color map
together, carrying the current color `cur` (the Go variable `hue`,
starting at 0); on a color change emit the escape sequence for the new
color's hue from `rm` (the `rulemap`), then emit the byte. -/
def writeLoop (rm : List Hue) : List Nat → List Nat → Nat → List Emit
  | [], _, _ => []
  | b :: p, hm, cur =>
    let v := hm.headD 0
    if v ≠ cur then
      let th := rm.getD v ⟨0, 0⟩
      Emit.esc (ASCIIFmtBytes th.Fg th.Bg) :: Emit.chr (charUTF8 b) ::
        writeLoop rm p hm.tail v
    else
      Emit.chr (charUTF8 b) :: writeLoop rm p hm.tail cur

/-- Bytes a single emission hands to the sink. -/
def emitBytes : Emit → List Nat
  | .esc l => l
  | .chr l => l

/-- Concatenated byte stream the wrapped sink receives. -/
def sinkBytes (em : List Emit) : List Nat :=
  (em.map emitBytes).flatten

/-- Number of escape sequences among the sink emissions. -/
def escCount (em : List Emit) : Nat :=
  em.countP (fun e => match e with | .esc _ => true | .chr _ => false)

/-- Escape-sequence payloads among the sink emissions, in order. -/
def escPayloads (em : List Emit) : List (List Nat) :=
  em.filterMap (fun e => match e with | .esc l => some l | .chr _ => none)

/-- Result of one `RegexpWriter.Write` call: the ordered emissions to the
wrapped sink, the bytes written to the process standard output, and the
returned count `n` (the bytes written to the sink; each `Fprintf`
reports its byte count and `n` accumulates them). -/
structure WriteOut where
  emits : List Emit
  stdout : List Nat
  n : Nat
deriving DecidableEq, Repr

/-- Models `RegexpWriter.Write` on a writer holding `rules` (in `AddRule`
order) applied to buffer `p`.  The trailing `fmt.Print(ASCIIReset)`
writes the reset to the process standard output. -/
def regexpWrite (rules : List rule) (p : List Nat) : WriteOut :=
  let hm := mkHuemap rules p.length
  let em := writeLoop (rulemap rules) p hm 0
  ⟨em, ASCIIResetBytes, (sinkBytes em).length⟩

/-- Index (1-based) of the last-added rule among `rs` (whose first rule
has index `i`) with a match span covering position `j`; 0 when no rule's
span covers `j`.  This is the specification-side description of the
color assignment: it is written from the spec's words, to be compared
with the color map the code computes. -/
def coverIdx : List rule → Nat → Nat → Nat
  | [], _, _ => 0
  | r :: rs, i, j =>
    let rest := coverIdx rs (i + 1) j
    if rest ≠ 0 then rest
    else if r.spans.any (fun s => decide (s.1 ≤ j) && decide (j < s.2)) then i
    else 0

/-- Number of color transitions the output loop performs when the active
color starts at `cur`: one per entry of the color map that differs from
the color active just before it. -/
def transCount : Nat → List Nat → Nat
  | _, [] => 0
  | cur, v :: rest => (if v = cur then 0 else 1) + transCount v rest

/-- Values of the color map at its transition points, in order, when the
active color starts at `cur`. -/
def changeVals : Nat → List Nat → List Nat
  | _, [] => []
  | cur, v :: rest =>
    if v = cur then changeVals v rest else v :: changeVals v rest

/-- Number of maximal runs of identical values in a list. -/
def runCount : List Nat → Nat
  | [] => 0
  | [_] => 1
  | a :: b :: rest => (if a = b then 0 else 1) + runCount (b :: rest)

/-- Rule set with 256 rules whose patterns all match the span `[0, 1)` of
a one-byte buffer (for example the pattern `.` on a one-byte input). -/
def rules256 : List rule := List.replicate 256 ⟨⟨31, 41⟩, [(0, 1)]⟩

/-! ### Digit lemmas -/

theorem natDigits_eq_two {n : Nat} (h1 : 10 ≤ n) (h2 : n < 100) :
    natDigits n = [48 + n / 10, 48 + n % 10] := by
  obtain ⟨m, rfl⟩ : ∃ m, n = m + 1 := ⟨n - 1, by omega⟩
  rw [natDigits, natDigitsCore, if_neg (by omega)]
  obtain ⟨k, hk⟩ : ∃ k, m = k + 1 := ⟨m - 1, by omega⟩
  rw [hk, natDigitsCore, if_pos (by omega)]

theorem natDigitsCore_mem_ge {fuel : Nat} :
    ∀ (n : Nat) (acc : List Nat), (∀ c ∈ acc, 48 ≤ c) →
      ∀ c ∈ natDigitsCore fuel n acc, 48 ≤ c := by
  induction fuel with
  | zero => intro n acc hacc c hc; exact hacc c hc
  | succ fuel ih =>
    intro n acc hacc c hc
    rw [natDigitsCore] at hc
    split at hc
    · rcases List.mem_cons.1 hc with rfl | hmem
      · omega
      · exact hacc c hmem
    · refine ih (n / 10) _ ?_ c hc
      intro d hd
      rcases List.mem_cons.1 hd with rfl | hmem
      · omega
      · exact hacc d hmem

theorem natDigits_mem_ge {n : Nat} : ∀ c ∈ natDigits n, 48 ≤ c :=
  natDigitsCore_mem_ge n [] (by simp)

theorem intDigits_length_two {i : Int} (h1 : 10 ≤ i) (h2 : i ≤ 99) :
    (intDigits i).length = 2 := by
  rw [intDigits, if_neg (by omega), natDigits_eq_two (by omega) (by omega)]
  rfl

theorem intDigits_mem_ne_37 {i : Int} : ∀ c ∈ intDigits i, c ≠ 37 := by
  rw [intDigits]
  split
  · intro c hc
    rcases List.mem_cons.1 hc with h | h
    · omega
    · have := natDigits_mem_ge c h
      omega
  · intro c hc
    have := natDigits_mem_ge c hc
    omega

theorem ASCIIFmtBytes_length {fg bg : Int} (h1 : 10 ≤ fg) (h2 : fg ≤ 99)
    (h3 : 10 ≤ bg) (h4 : bg ≤ 99) : (ASCIIFmtBytes fg bg).length = 8 := by
  simp [ASCIIFmtBytes, intDigits_length_two h1 h2, intDigits_length_two h3 h4]

theorem ASCIIFmtBytes_mem_ne_37 {fg bg : Int} :
    ∀ c ∈ ASCIIFmtBytes fg bg, c ≠ 37 := by
  intro c hc
  rcases List.mem_append.1 hc with h1 | h1
  · simp at h1; omega
  rcases List.mem_append.1 h1 with h2 | h2
  · exact intDigits_mem_ne_37 c h2
  rcases List.mem_append.1 h2 with h3 | h3
  · simp at h3; omega
  rcases List.mem_append.1 h3 with h4 | h4
  · exact intDigits_mem_ne_37 c h4
  · simp at h4; omega

/-! ### Decode lemmas -/

theorem Decode_strip {pre mid suf : List Nat}
    (h8 : pre.length = 8) (h4 : suf.length = 4) :
    Decode (pre ++ (mid ++ suf)) = .ok mid := by
  have hlen : (pre ++ (mid ++ suf)).length = mid.length + 12 := by
    rw [List.length_append, List.length_append, h8, h4]; omega
  rw [Decode, if_neg (by omega), hlen]
  have hdrop : (pre ++ (mid ++ suf)).drop 8 = mid ++ suf := by
    rw [← h8, List.drop_left]
  rw [hdrop]
  have htake : (mid ++ suf).take (mid.length + 12 - 12) = mid := by
    simp
  rw [htake]

/-! ### Color map lemmas -/

theorem setRangeCore_length (k : Nat) :
    ∀ (hm : List Nat) (v lo : Nat),
      (setRangeCore k hm v lo).length = hm.length := by
  induction k with
  | zero => intro hm v lo; rfl
  | succ k ih =>
    intro hm v lo
    rw [setRangeCore, ih, List.length_set]

theorem setRange_length (hm : List Nat) (v lo hi : Nat) :
    (setRange hm v lo hi).length = hm.length := by
  rw [setRange, setRangeCore_length]

theorem getD_set (l : List Nat) (i j a : Nat) :
    (l.set i a).getD j 0 =
      if i = j ∧ j < l.length then a else l.getD j 0 := by
  induction l generalizing i j with
  | nil => simp [List.set]
  | cons x l ih =>
    cases i with
    | zero =>
      cases j with
      | zero => simp
      | succ j => simp
    | succ i =>
      cases j with
      | zero => simp
      | succ j =>
        simp only [List.set, List.getD_cons_succ, List.length_cons]
        rw [ih]
        split_ifs <;> first | rfl | omega

theorem setRangeCore_getD (k : Nat) :
    ∀ (hm : List Nat) (v lo j : Nat),
      (setRangeCore k hm v lo).getD j 0 =
        if lo ≤ j ∧ j < lo + k ∧ j < hm.length then v else hm.getD j 0 := by
  induction k with
  | zero =>
    intro hm v lo j
    rw [setRangeCore, if_neg (by omega)]
  | succ k ih =>
    intro hm v lo j
    rw [setRangeCore, ih, List.length_set, getD_set]
    split_ifs <;> first | rfl | omega

theorem setRange_getD (hm : List Nat) (v lo hi j : Nat) :
    (setRange hm v lo hi).getD j 0 =
      if lo ≤ j ∧ j < hi ∧ j < hm.length then v else hm.getD j 0 := by
  rw [setRange, setRangeCore_getD]
  split_ifs <;> first | rfl | omega

theorem applySpans_length (ss : List (Nat × Nat)) (hm : List Nat) (v : Nat) :
    (applySpans hm v ss).length = hm.length := by
  induction ss generalizing hm with
  | nil => rfl
  | cons s ss ih => rw [applySpans, ih, setRange_length]

theorem applySpans_getD (ss : List (Nat × Nat)) (hm : List Nat) (v j : Nat) :
    (applySpans hm v ss).getD j 0 =
      if (∃ s ∈ ss, s.1 ≤ j ∧ j < s.2) ∧ j < hm.length then v
      else hm.getD j 0 := by
  induction ss generalizing hm with
  | nil => simp [applySpans]
  | cons s ss ih =>
    rw [applySpans, ih, setRange_length, setRange_getD]
    by_cases hj : j < hm.length
    · by_cases hrest : ∃ t ∈ ss, t.1 ≤ j ∧ j < t.2
      · obtain ⟨t, ht, htc⟩ := hrest
        rw [if_pos ⟨⟨t, ht, htc⟩, hj⟩,
          if_pos ⟨⟨t, List.mem_cons_of_mem s ht, htc⟩, hj⟩]
      · rw [if_neg (fun hcon => hrest hcon.1)]
        by_cases hs : s.1 ≤ j ∧ j < s.2
        · rw [if_pos ⟨hs.1, hs.2, hj⟩,
            if_pos ⟨⟨s, List.mem_cons_self s ss, hs⟩, hj⟩]
        · have hz : ¬ ((∃ t ∈ s :: ss, t.1 ≤ j ∧ j < t.2) ∧ j < hm.length) := by
            rintro ⟨⟨t, ht, htc⟩, -⟩
            rcases List.mem_cons.1 ht with rfl | ht2
            · exact hs htc
            · exact hrest ⟨t, ht2, htc⟩
          rw [if_neg (fun hcon => hs ⟨hcon.1, hcon.2.1⟩), if_neg hz]
    · have hx : ¬ ((∃ t ∈ ss, t.1 ≤ j ∧ j < t.2) ∧ j < hm.length) :=
        fun hcon => hj hcon.2
      have hy : ¬ (s.1 ≤ j ∧ j < s.2 ∧ j < hm.length) :=
        fun hcon => hj hcon.2.2
      have hz : ¬ ((∃ t ∈ s :: ss, t.1 ≤ j ∧ j < t.2) ∧ j < hm.length) :=
        fun hcon => hj hcon.2
      rw [if_neg hx, if_neg hy, if_neg hz]

theorem huemapGo_length (rs : List rule) (i : Nat) (hm : List Nat) :
    (huemapGo rs i hm).length = hm.length := by
  induction rs generalizing i hm with
  | nil => rfl
  | cons r rs ih => rw [huemapGo, ih, applySpans_length]

theorem mkHuemap_length (rules : List rule) (len : Nat) :
    (mkHuemap rules len).length = len := by
  rw [mkHuemap, huemapGo_length, List.length_replicate]

theorem coverIdx_pos (rs : List rule) (i j : Nat) (hi1 : 1 ≤ i) :
    coverIdx rs i j = 0 ∨ i ≤ coverIdx rs i j := by
  induction rs generalizing i with
  | nil => left; rfl
  | cons r rs ih =>
    rw [coverIdx]
    rcases ih (i + 1) (by omega) with h | h <;> split_ifs <;> omega

theorem coverIdx_cons (r : rule) (rs : List rule) (i j : Nat) :
    coverIdx (r :: rs) i j =
      if coverIdx rs (i + 1) j ≠ 0 then coverIdx rs (i + 1) j
      else if r.spans.any (fun s => decide (s.1 ≤ j) && decide (j < s.2)) then i
      else 0 := rfl

theorem huemapGo_getD (rs : List rule) (i : Nat) (hm : List Nat) (j : Nat)
    (hi1 : 1 ≤ i) (hj : j < hm.length) :
    (huemapGo rs i hm).getD j 0 =
      if coverIdx rs i j ≠ 0 then coverIdx rs i j % 256 else hm.getD j 0 := by
  induction rs generalizing i hm with
  | nil => simp [huemapGo, coverIdx]
  | cons r rs ih =>
    rw [huemapGo,
      ih (i + 1) _ (by omega) (by rw [applySpans_length]; exact hj)]
    by_cases hrest : coverIdx rs (i + 1) j ≠ 0
    · simp only [coverIdx_cons, if_pos hrest]
    · have hrest0 : coverIdx rs (i + 1) j = 0 := by omega
      simp only [coverIdx_cons, if_neg hrest]
      rw [applySpans_getD]
      by_cases hcov : ∃ s ∈ r.spans, s.1 ≤ j ∧ j < s.2
      · have hany : r.spans.any
            (fun s => decide (s.1 ≤ j) && decide (j < s.2)) = true := by
          rw [List.any_eq_true]
          obtain ⟨s, hsm, hsc⟩ := hcov
          exact ⟨s, hsm, by simp [hsc.1, hsc.2]⟩
        rw [if_pos ⟨hcov, hj⟩, if_pos hany, if_pos (show i ≠ 0 by omega)]
      · have hany : r.spans.any
            (fun s => decide (s.1 ≤ j) && decide (j < s.2)) = false := by
          rw [List.any_eq_false]
          intro s hsm
          simp only [Bool.and_eq_true, decide_eq_true_eq, not_and]
          intro hle hlt
          exact hcov ⟨s, hsm, hle, hlt⟩
        rw [if_neg (fun hcon => hcov hcon.1), hany]
        simp

/-! ### Output loop lemmas -/

theorem writeLoop_escCount (rm : List Hue) (p : List Nat) :
    ∀ (hm : List Nat) (cur : Nat), hm.length = p.length →
      escCount (writeLoop rm p hm cur) = transCount cur hm := by
  induction p with
  | nil =>
    intro hm cur hlen
    rw [List.length_nil, List.length_eq_zero] at hlen
    subst hlen
    rfl
  | cons b p ih =>
    intro hm cur hlen
    cases hm with
    | nil => simp at hlen
    | cons v hm =>
      rw [writeLoop]
      simp only [List.headD_cons, List.tail_cons]
      by_cases hv : v = cur
      · rw [if_neg (by simp [hv]), transCount, if_pos hv]
        simp only [escCount, List.countP_cons]
        rw [← escCount, ih hm cur (by simpa using hlen), hv]
        simp
      · rw [if_pos (by simp [hv]), transCount, if_neg hv]
        simp only [escCount, List.countP_cons]
        rw [← escCount, ih hm v (by simpa using hlen)]
        simp [Nat.add_comm]

theorem writeLoop_escPayloads (rm : List Hue) (p : List Nat) :
    ∀ (hm : List Nat) (cur : Nat), hm.length = p.length →
      escPayloads (writeLoop rm p hm cur) =
        (changeVals cur hm).map
          (fun v => ASCIIFmtBytes (rm.getD v ⟨0, 0⟩).Fg (rm.getD v ⟨0, 0⟩).Bg) := by
  induction p with
  | nil =>
    intro hm cur hlen
    rw [List.length_nil, List.length_eq_zero] at hlen
    subst hlen
    rfl
  | cons b p ih =>
    intro hm cur hlen
    cases hm with
    | nil => simp at hlen
    | cons v hm =>
      rw [writeLoop]
      simp only [List.headD_cons, List.tail_cons]
      by_cases hv : v = cur
      · rw [if_neg (by simp [hv]), changeVals, if_pos hv]
        simp only [escPayloads, List.filterMap_cons]
        rw [← escPayloads, ih hm cur (by simpa using hlen), hv]
      · rw [if_pos (by simp [hv]), changeVals, if_neg hv]
        simp only [escPayloads, List.filterMap_cons]
        rw [← escPayloads, ih hm v (by simpa using hlen)]
        simp

/-! ### Encode and Sprintf lemmas -/

theorem Encode_fst (h : Hue) (a : List Nat) :
    (Encode h a).1 =
      ⟨if h.Fg = 0 then Default else h.Fg,
       if h.Bg = 0 then Default else h.Bg⟩ := by
  simp only [Encode, isUnset]
  by_cases h1 : h.Fg = 0 <;> by_cases h2 : h.Bg = 0 <;> simp [h1, h2]

theorem Encode_snd (h : Hue) (a : List Nat) :
    (Encode h a).2 =
      ASCIIFmtBytes (Encode h a).1.Fg ((Encode h a).1.Bg + 10) ++
        (a ++ ASCIIResetBytes) := rfl

theorem sprintfS_verbatim (pre : List Nat) :
    ∀ (rest arg : List Nat), (∀ c ∈ pre, c ≠ 37) →
      sprintfS (pre ++ (37 :: 115 :: rest)) arg = pre ++ (arg ++ rest) := by
  induction pre with
  | nil =>
    intro rest arg _
    simp [sprintfS]
  | cons a pre ih =>
    intro rest arg hp
    have ha : a ≠ 37 := hp a (List.mem_cons_self a pre)
    cases pre with
    | nil =>
      simp only [List.nil_append, List.cons_append]
      rw [sprintfS, if_neg (by omega)]
      rw [sprintfS, if_pos ⟨rfl, rfl⟩]
    | cons b pre2 =>
      simp only [List.cons_append]
      rw [sprintfS, if_neg (fun hcon => ha hcon.1)]
      have := ih rest arg (fun c hc => hp c (List.mem_cons_of_mem a hc))
      simp only [List.cons_append] at this
      rw [this]

/-! ### Claim theorems -/

/-- C1 (amended): for every rule list, buffer and in-range position `j`,
the color assignment computed by `RegexpWriter.Write` gives position `j`
the index of the last-added rule whose match span covers `j`, reduced
modulo 256 — the assignment array stores the index as a byte, `byte(i)`.
With at most 255 rules this is exactly the last-added covering rule's
index (0 when uncovered), later-added rules overwriting earlier ones on
overlap; where a rule matches inside the buffer is irrelevant to
precedence. -/
theorem C1_color_assignment (rules : List rule) (p : List Nat) (j : Nat)
    (hj : j < p.length) :
    (mkHuemap rules p.length).getD j 0 = coverIdx rules 1 j % 256 := by
  rw [mkHuemap,
    huemapGo_getD rules 1 _ j (by omega) (by simpa using hj)]
  by_cases hc : coverIdx rules 1 j ≠ 0
  · rw [if_pos hc]
  · push_neg at hc
    rw [if_neg (by simp [hc]), hc]
    simp only [List.getD_eq_getElem?_getD, List.getElem?_replicate]
    split_ifs
    rfl

/-- C1 witness: the spec's rule-precedence example — rule 1 matching
`[0, 5)` and rule 2 matching `[3, 8)` on a 10-byte buffer — at the
overlap position 4, where the later-added rule 2 wins. -/
theorem C1_color_assignment_witness :
    (mkHuemap [⟨⟨37, 41⟩, [(0, 5)]⟩, ⟨⟨32, 42⟩, [(3, 8)]⟩]
        (List.replicate 10 46).length).getD 4 0 =
      coverIdx [⟨⟨37, 41⟩, [(0, 5)]⟩, ⟨⟨32, 42⟩, [(3, 8)]⟩] 1 4 % 256 :=
  C1_color_assignment _ (List.replicate 10 46) 4 (by decide)

set_option maxRecDepth 8192 in
/-- C1 counterexample: with 256 rules all covering position 0 of a
one-byte buffer, the claim says position 0 receives the last-added rule's
index 256, but the code stores `byte(256) = 0`, so the byte is treated
as uncovered. -/
theorem C1_color_assignment_counterexample :
    (mkHuemap rules256 1).getD 0 0 = 0 ∧
    coverIdx rules256 1 0 = 256 ∧
    (mkHuemap rules256 1).getD 0 0 ≠ coverIdx rules256 1 0 := by
  decide

/-- C2 (code-bug evaluation): with zero rules and input `[0x41, 0xC8]`,
the sink receives `[0x41, 0xC3, 0x88]` — byte `0xC8` is expanded to its
two-byte UTF-8 form by the `%c` verb, so payload bytes are not emitted
verbatim — and receives no escape sequence at all; the single reset is
written to the process standard output by `fmt.Print`, so the sink output
is not `B ++ reset` as the claim states. -/
theorem C2_zero_rules_output :
    sinkBytes (regexpWrite [] [65, 200]).emits = [65, 195, 136] ∧
    escCount (regexpWrite [] [65, 200]).emits = 0 ∧
    (regexpWrite [] [65, 200]).stdout = ASCIIResetBytes ∧
    sinkBytes (regexpWrite [] [65, 200]).emits ≠
      [65, 200] ++ ASCIIResetBytes := by
  decide

/-- C3 (code-bug evaluation): for empty input, with any rule set, the
sink receives no bytes at all; the single trailing reset is written to
the process standard output by `fmt.Print(ASCIIReset)`, not to the sink
as the claim states. -/
theorem C3_trailing_reset_stdout (rules : List rule) :
    (regexpWrite rules []).emits = [] ∧
    sinkBytes (regexpWrite rules []).emits = [] ∧
    (regexpWrite rules []).stdout = ASCIIResetBytes :=
  ⟨rfl, rfl, rfl⟩

/-- C4 (amended): escape sequences are emitted to the sink once per color
TRANSITION of the per-byte assignment, with the active color starting at
0 — so an initial run of "no color" emits no escape, and any other
contiguous run emits exactly one (never one per byte, never one per
rule).  For one rule matching one interior contiguous sub-span exactly
two escapes reach the sink, and the mandatory trailing reset is written
to the process standard output. -/
theorem C4_escape_per_transition :
    (∀ (rules : List rule) (p : List Nat),
      escCount (regexpWrite rules p).emits =
        transCount 0 (mkHuemap rules p.length)) ∧
    escCount (regexpWrite [⟨⟨32, 42⟩, [(1, 3)]⟩] [97, 98, 99, 100]).emits
      = 2 ∧
    (regexpWrite [⟨⟨32, 42⟩, [(1, 3)]⟩] [97, 98, 99, 100]).stdout =
      ASCIIResetBytes := by
  refine ⟨fun rules p => ?_, by decide, by decide⟩
  have h := writeLoop_escCount (rulemap rules) p (mkHuemap rules p.length) 0
    (mkHuemap_length rules p.length)
  simpa [regexpWrite] using h

/-- C4 counterexample: with zero rules and the one-byte input `[0x61]`
the assignment has one contiguous run (color 0), yet the sink receives
zero escape sequences — "exactly one escape emission per contiguous run"
fails for an initial no-color run, because the active color already
starts at 0. -/
theorem C4_escape_per_run_counterexample :
    escCount (regexpWrite [] [97]).emits = 0 ∧
    runCount (mkHuemap [] 1) = 1 ∧
    escCount (regexpWrite [] [97]).emits ≠ runCount (mkHuemap [] 1) := by
  decide

/-- C5 (amended): the escape sequence emitted at each color transition is
the `ASCIIFmt` formatting of the new color's hue from the rule map — for
a transition to a rule index, that rule's stored foreground and
background codes; for a transition to index 0 the zero hue, producing
`ESC [ 0 ; 0 m` (bytes 27 91 48 59 48 109), which is not the 4-byte
reset sequence `ESC [ 0 m` the claim names, though it also resets. -/
theorem C5_transition_escape_bytes :
    (∀ (rules : List rule) (p : List Nat),
      escPayloads (regexpWrite rules p).emits =
        (changeVals 0 (mkHuemap rules p.length)).map
          (fun v => ASCIIFmtBytes ((rulemap rules).getD v ⟨0, 0⟩).Fg
            ((rulemap rules).getD v ⟨0, 0⟩).Bg)) ∧
    (∀ rules : List rule, (rulemap rules).getD 0 ⟨0, 0⟩ = (⟨0, 0⟩ : Hue)) ∧
    ASCIIFmtBytes 0 0 = [27, 91, 48, 59, 48, 109] := by
  refine ⟨fun rules p => ?_, fun rules => rfl, by decide⟩
  have h := writeLoop_escPayloads (rulemap rules) p (mkHuemap rules p.length)
    0 (mkHuemap_length rules p.length)
  simpa [regexpWrite] using h

/-- C5 counterexample: one rule matching span `[0, 1)` of the two-byte
input `[65, 66]`.  Two escapes are emitted: the rule's enter sequence,
then — before byte 1, at the transition back to index 0 — the bytes
`ESC [ 0 ; 0 m`, which differ from the reset sequence `ESC [ 0 m` the
claim requires at that point. -/
theorem C5_reset_shape_counterexample :
    escPayloads (regexpWrite [⟨⟨31, 47⟩, [(0, 1)]⟩] [65, 66]).emits =
      [[27, 91, 51, 49, 59, 52, 55, 109], [27, 91, 48, 59, 48, 109]] ∧
    ([27, 91, 48, 59, 48, 109] : List Nat) ≠ ASCIIResetBytes := by
  decide

/-- C6 (confirmed): decoding the encoding of any byte text `T` under any
hue whose foreground and background both lie in the defined color-code
range 30..38 returns exactly `T`. -/
theorem C6_encode_decode_roundtrip (h : Hue) (T : List Nat)
    (h1 : 30 ≤ h.Fg) (h2 : h.Fg ≤ 38) (h3 : 30 ≤ h.Bg) (h4 : h.Bg ≤ 38) :
    Decode (Encode h T).2 = Except.ok T := by
  have hfst : (Encode h T).1 = h := by
    rw [Encode_fst, if_neg (by omega), if_neg (by omega)]
  rw [Encode_snd, hfst]
  exact Decode_strip
    (ASCIIFmtBytes_length (by omega) (by omega) (by omega) (by omega)) rfl

/-- C6 witness: round trip at the hue (Green, Blue) and text "hi". -/
theorem C6_encode_decode_roundtrip_witness :
    Decode (Encode ⟨32, 34⟩ [104, 105]).2 = Except.ok [104, 105] :=
  C6_encode_decode_roundtrip ⟨32, 34⟩ [104, 105]
    (by decide) (by decide) (by decide) (by decide)

/-- C7 (confirmed): `Decode` fails with the length error exactly when the
input is shorter than 12 bytes; otherwise it strips exactly 8 leading
and 4 trailing bytes without parsing them, and on a 12-byte input it
returns the empty text. -/
theorem C7_decode_length_contract :
    (∀ l : List Nat,
      Decode l = Except.error DecodeErr.lengthError ↔ l.length < 12) ∧
    (∀ pre mid suf : List Nat, pre.length = 8 → suf.length = 4 →
      Decode (pre ++ (mid ++ suf)) = Except.ok mid) ∧
    (∀ l : List Nat, l.length = 12 → Decode l = Except.ok []) := by
  refine ⟨fun l => ?_, fun pre mid suf h8 h4 => Decode_strip h8 h4,
    fun l hl => ?_⟩
  · rw [Decode]
    split_ifs with hlt
    · simp [hlt]
    · simp [hlt]
  · rw [Decode, if_neg (by omega), hl]
    simp

/-- C7 witness: an 8-byte prefix and 4-byte suffix around the payload
`[65]` decode to exactly that payload. -/
theorem C7_decode_length_contract_witness :
    Decode (List.replicate 8 40 ++ ([65] ++ List.replicate 4 48)) =
      Except.ok [65] :=
  C7_decode_length_contract.2.1 (List.replicate 8 40) [65]
    (List.replicate 4 48) (by decide) (by decide)

/-- C8 (confirmed): for any hue whose fields are either the zero/unset
sentinel or defined color codes, `Encode` substitutes `Default` for a
zero field before formatting, and the two codes placed in the emitted
escape prefix (`fg` and `bg + 10`) are both nonzero. -/
theorem C8_encode_default_substitution (h : Hue) (a : List Nat)
    (hf : h.Fg = 0 ∨ (30 ≤ h.Fg ∧ h.Fg ≤ 39))
    (hb : h.Bg = 0 ∨ (30 ≤ h.Bg ∧ h.Bg ≤ 39)) :
    (h.Fg = 0 → (Encode h a).1.Fg = Default) ∧
    (h.Bg = 0 → (Encode h a).1.Bg = Default) ∧
    (Encode h a).2 =
      ASCIIFmtBytes (Encode h a).1.Fg ((Encode h a).1.Bg + 10) ++
        (a ++ ASCIIResetBytes) ∧
    (Encode h a).1.Fg ≠ 0 ∧ (Encode h a).1.Bg + 10 ≠ 0 := by
  refine ⟨fun h0 => by rw [Encode_fst]; simp [h0],
    fun h0 => by rw [Encode_fst]; simp [h0],
    Encode_snd h a, ?_, ?_⟩
  · rw [Encode_fst]
    dsimp only
    split_ifs with h0
    · simp [Default]
    · rcases hf with h1 | h1
      · exact absurd h1 h0
      · omega
  · rw [Encode_fst]
    dsimp only
    split_ifs with h0
    · simp [Default]
    · rcases hb with h1 | h1
      · exact absurd h1 h0
      · omega

/-- C8 witness: a hue with unset foreground and background Red gets
`Default` substituted for its foreground. -/
theorem C8_encode_default_substitution_witness :
    (Encode ⟨0, 31⟩ [65]).1.Fg = Default :=
  (C8_encode_default_substitution ⟨0, 31⟩ [65]
    (Or.inl rfl) (Or.inr (by decide))).1 rfl

/-- C9 (confirmed): the solid writer's `Write` hands the sink exactly one
encoded string — the escape prefix, the whole input buffer, then the
reset — and returns the count the sink reports for that write: the
escape-annotated output length `len(p) + 12`, which never equals the
input length. -/
theorem C9_solid_writer_count (h : Hue) (p : List Nat)
    (hf : h.Fg = 0 ∨ (30 ≤ h.Fg ∧ h.Fg ≤ 39))
    (hb : h.Bg = 0 ∨ (30 ≤ h.Bg ∧ h.Bg ≤ 39)) :
    (writerWrite h p).2.1 =
      ASCIIFmtBytes (writerWrite h p).1.Fg ((writerWrite h p).1.Bg + 10) ++
        (p ++ ASCIIResetBytes) ∧
    (writerWrite h p).2.2 = (writerWrite h p).2.1.length ∧
    (writerWrite h p).2.2 = p.length + 12 ∧
    (writerWrite h p).2.2 ≠ p.length := by
  have hF : 30 ≤ (Encode h [37, 115]).1.Fg ∧ (Encode h [37, 115]).1.Fg ≤ 39 := by
    rw [Encode_fst]
    dsimp only
    split_ifs with h0
    · simp [Default]
    · rcases hf with h1 | h1
      · exact absurd h1 h0
      · omega
  have hB : 30 ≤ (Encode h [37, 115]).1.Bg ∧ (Encode h [37, 115]).1.Bg ≤ 39 := by
    rw [Encode_fst]
    dsimp only
    split_ifs with h0
    · simp [Default]
    · rcases hb with h1 | h1
      · exact absurd h1 h0
      · omega
  have hout : (writerWrite h p).2.1 =
      ASCIIFmtBytes (Encode h [37, 115]).1.Fg
        ((Encode h [37, 115]).1.Bg + 10) ++ (p ++ ASCIIResetBytes) := by
    show sprintfS (Encode h [37, 115]).2 p = _
    rw [Encode_snd]
    have hsh : ([37, 115] : List Nat) ++ ASCIIResetBytes =
        37 :: 115 :: ASCIIResetBytes := rfl
    rw [hsh]
    exact sprintfS_verbatim _ ASCIIResetBytes p
      (fun c hc => ASCIIFmtBytes_mem_ne_37 c hc)
  have hfmt : (ASCIIFmtBytes (Encode h [37, 115]).1.Fg
      ((Encode h [37, 115]).1.Bg + 10)).length = 8 :=
    ASCIIFmtBytes_length (by omega) (by omega) (by omega) (by omega)
  have hlen : (writerWrite h p).2.2 = p.length + 12 := by
    show (writerWrite h p).2.1.length = p.length + 12
    rw [hout, List.length_append, List.length_append, hfmt]
    simp [ASCIIResetBytes]
    omega
  exact ⟨hout, rfl, hlen, by omega⟩

/-- C9 witness: writing two bytes through a writer bound to the unset hue
reports 14 written bytes, not 2. -/
theorem C9_solid_writer_count_witness :
    (writerWrite ⟨0, 0⟩ [65, 66]).2.2 = ([65, 66] : List Nat).length + 12 :=
  (C9_solid_writer_count ⟨0, 0⟩ [65, 66] (Or.inl rfl) (Or.inl rfl)).2.2.1

/-- C10 (confirmed): when a hue has a zero field, `Encode` changes the
caller's hue — the post-call state differs from the pre-call state, the
zero fields now hold `Default`, and the change persists: encoding again
from the post-call state leaves it fixed. -/
theorem C10_encode_mutates_hue (h : Hue) (a b : List Nat)
    (h0 : h.Fg = 0 ∨ h.Bg = 0) :
    (Encode h a).1 ≠ h ∧
    (h.Fg = 0 → (Encode h a).1.Fg = Default) ∧
    (h.Bg = 0 → (Encode h a).1.Bg = Default) ∧
    (Encode ((Encode h a).1) b).1 = (Encode h a).1 := by
  refine ⟨?_, fun hf => by rw [Encode_fst]; simp [hf],
    fun hb2 => by rw [Encode_fst]; simp [hb2], ?_⟩
  · intro heq
    rw [Encode_fst] at heq
    rcases h0 with h0 | h0
    · have hFg := congrArg Hue.Fg heq
      dsimp at hFg
      rw [if_pos h0, h0] at hFg
      exact absurd hFg (by decide)
    · have hBg := congrArg Hue.Bg heq
      dsimp at hBg
      rw [if_pos h0, h0] at hBg
      exact absurd hBg (by decide)
  · rw [Encode_fst, Encode_fst]
    dsimp only
    by_cases hf : h.Fg = 0 <;> by_cases hb2 : h.Bg = 0 <;>
      simp [hf, hb2, Default]

/-- C10 witness: a hue with unset foreground, once encoded, is a fixed
point of further encoding — the mutation already happened and persists. -/
theorem C10_encode_mutates_hue_witness :
    (Encode ((Encode ⟨0, 35⟩ [65]).1) [66]).1 = (Encode ⟨0, 35⟩ [65]).1 :=
  (C10_encode_mutates_hue ⟨0, 35⟩ [65] [66] (Or.inl rfl)).2.2.2

end hue
